import Mathlib

/-!
Verification development for the transcription-to-stories repository.

Part 1: the WebVTT-to-plain-text normalizer (`src/lib/vttParser.ts`:
`parseVTT` and `enhanceTranscript`).  Strings are modelled as `List Char`
(ASCII semantics for the JavaScript character classes), with `String`
wrappers at the top level.  Each JavaScript regular-expression replacement
is translated into an executable scanning function with the same
leftmost-match / continue-after-match semantics.

Part 2: the result-table model (`src/components/ResultsTable.tsx`:
`getHeaders`, `copyToClipboard`, and the display-header transform).

Part 3: the record-collection detection fallback chain
(`src/app/api/extract-requirements/route.ts`, POST handler).
-/

/-! ## Character classes (JavaScript `\s`, `\w`, punctuation, case maps) -/

/-- JavaScript whitespace (`\s`, `trim`), restricted to ASCII. -/
def isSpaceJS (c : Char) : Bool :=
  c = ' ' ∨ c = '\t' ∨ c = '\n' ∨ c = '\r' ∨ c.toNat = 11 ∨ c.toNat = 12

/-- JavaScript word character `\w` = `[A-Za-z0-9_]`. -/
def isWordChar (c : Char) : Bool :=
  ('a' ≤ c ∧ c ≤ 'z') ∨ ('A' ≤ c ∧ c ≤ 'Z') ∨ ('0' ≤ c ∧ c ≤ '9') ∨ c = '_'

/-- The punctuation class `[.,!?;:]` used by `enhanceTranscript`. -/
def isPunctChar (c : Char) : Bool :=
  c = '.' ∨ c = ',' ∨ c = '!' ∨ c = '?' ∨ c = ';' ∨ c = ':'

/-- ASCII `toUpperCase` on a single character. -/
def upperAscii (c : Char) : Char :=
  if 'a' ≤ c ∧ c ≤ 'z' then Char.ofNat (c.toNat - 32) else c

/-- ASCII `toLowerCase` on a single character (for case-insensitive matching). -/
def lowerAscii (c : Char) : Char :=
  if 'A' ≤ c ∧ c ≤ 'Z' then Char.ofNat (c.toNat + 32) else c

/-! ## Generic string helpers over `List Char` -/

/-- JavaScript `String.prototype.trim` (ASCII whitespace). -/
def trimL (l : List Char) : List Char :=
  ((l.dropWhile isSpaceJS).reverse.dropWhile isSpaceJS).reverse

/-- JavaScript `String.prototype.split('\n')`. -/
def splitNl : List Char → List (List Char)
  | [] => [[]]
  | '\n' :: cs => [] :: splitNl cs
  | c :: cs =>
    match splitNl cs with
    | [] => [[c]]
    | h :: t => (c :: h) :: t

/-- JavaScript `String.prototype.split(sep)` for a one-character separator. -/
def splitOnChar (sep : Char) : List Char → List (List Char)
  | [] => [[]]
  | c :: cs =>
    if c = sep then [] :: splitOnChar sep cs
    else
      match splitOnChar sep cs with
      | [] => [[c]]
      | h :: t => (c :: h) :: t

/-- Does `l` start with `pat`? (`String.prototype.startsWith`). -/
def startsWithL : List Char → List Char → Bool
  | [], _ => true
  | _ :: _, [] => false
  | p :: ps, c :: cs => p = c && startsWithL ps cs

/-- Does `l` contain `pat` as a contiguous substring? (`String.prototype.includes`). -/
def containsSub (l pat : List Char) : Bool :=
  match l with
  | [] => startsWithL pat []
  | _ :: cs => startsWithL pat l || containsSub cs pat

/-- JavaScript `Array.prototype.join(sep)` over character lists. -/
def joinSep (sep : List Char) : List (List Char) → List Char
  | [] => []
  | [x] => x
  | x :: y :: rest => x ++ sep ++ joinSep sep (y :: rest)

/-! ## The voice-tag regular expression `/<v[^>]*>(.*?)<\/v>/`

`line.match(...)` returns the first (leftmost) match; we only need the
captured group.  The opening part `<v[^>]*>` deterministically consumes up
to the first `>`; the lazy group stops at the first subsequent `</v>`, and
`.` does not match line terminators. -/

/-- The literal closing tag `</v>` (the match regex is case-sensitive). -/
def closeChars : List Char := "</v>".data

/-- Drop characters up to and including the first `>`; `none` if there is no `>`. -/
def afterGt : List Char → Option (List Char)
  | [] => none
  | c :: cs => if c = '>' then some cs else afterGt cs

/-- Lazy scan for the literal `</v>`; returns the captured content before it.
`.` in the pattern cannot cross a line terminator. -/
def lazyToClose : List Char → Option (List Char)
  | [] => none
  | c :: cs =>
    if startsWithL closeChars (c :: cs) then some []
    else if c = '\n' ∨ c = '\r' then none
    else (lazyToClose cs).map (fun r => c :: r)

/-- Try to match `<v[^>]*>(.*?)<\/v>` starting exactly at the head of `l`. -/
def vTryHere : List Char → Option (List Char)
  | c1 :: c2 :: cs =>
    if c1 = '<' ∧ c2 = 'v' then (afterGt cs).bind lazyToClose else none
  | _ => none

/-- First match of the voice-tag pattern anywhere in `l` (captured group). -/
def voiceMatch : List Char → Option (List Char)
  | [] => none
  | c :: cs =>
    match vTryHere (c :: cs) with
    | some r => some r
    | none => voiceMatch cs

/-! ## The line-classification loop of `parseVTT` -/

def webvttChars : List Char := "WEBVTT".data

def arrowChars : List Char := "-->".data

def vtagChars : List Char := "<v ".data

/-- The test `line.includes('-') && line.split('-').length >= 4` (cue-identifier heuristic). -/
def isUuidLine (l : List Char) : Bool :=
  l.contains '-' && decide (4 ≤ (splitOnChar '-' l).length)

/-- Push the voice-tag capture if the match succeeded and the group is truthy
(non-empty), as in `if (match && match[1])`. -/
def voicePush (acc : List (List Char)) (l : List Char) : List (List Char) :=
  match voiceMatch l with
  | some m => if m = [] then acc else acc ++ [m]
  | none => acc

/-- One iteration of the `for` loop in `parseVTT`: state is
`(skipNext, transcriptLines)`, the raw line is trimmed first. -/
def stepLine (st : Bool × List (List Char)) (raw : List Char) : Bool × List (List Char) :=
  let line := trimL raw
  if line = webvttChars ∨ line = [] then st
  else if isUuidLine line then (true, st.2)
  else if containsSub line arrowChars then (true, st.2)
  else if startsWithL vtagChars line then (false, voicePush st.2 line)
  else if st.1 = false ∧ line ≠ [] then (false, st.2 ++ [line])
  else (false, st.2)

/-- The whole classification loop, started with `skipNext = false`. -/
def parseLines (lines : List (List Char)) : Bool × List (List Char) :=
  lines.foldl stepLine (false, [])

/-! ## The enhancement pipeline (`enhanceTranscript`)

Fuelled scanners are used where a replacement jumps past the match; fuel
`length + 1` always suffices because every step consumes at least one
character. -/

/-- Model of `replace(/<v[^>]*>/gi, '')`. -/
def removeVOpenF : Nat → List Char → List Char
  | 0, l => l
  | _ + 1, [] => []
  | n + 1, '<' :: c :: cs =>
    if c = 'v' ∨ c = 'V' then
      match afterGt cs with
      | some rest => removeVOpenF n rest
      | none => '<' :: removeVOpenF n (c :: cs)
    else '<' :: removeVOpenF n (c :: cs)
  | n + 1, c :: cs => c :: removeVOpenF n cs

def removeVOpen (l : List Char) : List Char := removeVOpenF (l.length + 1) l

/-- Model of `replace(/<\/v>/gi, '')`. -/
def removeVClose : List Char → List Char
  | [] => []
  | '<' :: '/' :: c :: '>' :: cs =>
    if c = 'v' ∨ c = 'V' then removeVClose cs
    else '<' :: removeVClose ('/' :: c :: '>' :: cs)
  | c :: cs => c :: removeVClose cs

/-- Model of `replace(/<[^>]+>/g, '')` (at least one non-`>` between the brackets). -/
def removeTagsF : Nat → List Char → List Char
  | 0, l => l
  | _ + 1, [] => []
  | n + 1, '<' :: cs =>
    match cs with
    | '>' :: _ => '<' :: removeTagsF n cs
    | _ =>
      match afterGt cs with
      | some rest => removeTagsF n rest
      | none => '<' :: removeTagsF n cs
  | n + 1, c :: cs => c :: removeTagsF n cs

def removeTags (l : List Char) : List Char := removeTagsF (l.length + 1) l

/-- Model of `replace(/\s+/g, ' ')`: collapse every whitespace run to a single space. -/
def collapseWs : List Char → List Char
  | [] => []
  | c :: cs =>
    if isSpaceJS c then
      match cs with
      | d :: _ => if isSpaceJS d then collapseWs cs else ' ' :: collapseWs cs
      | [] => [' ']
  else c :: collapseWs cs

/-- Is the next non-whitespace character a punctuation character? -/
def wsThenPunct (l : List Char) : Bool :=
  match l.dropWhile isSpaceJS with
  | p :: _ => isPunctChar p
  | [] => false

/-- Model of `replace(/\s+([.,!?;:])/g, '$1')`: delete whitespace runs before punctuation. -/
def delWsBeforePunct : List Char → List Char
  | [] => []
  | c :: cs =>
    if isSpaceJS c ∧ wsThenPunct cs then delWsBeforePunct cs
    else c :: delWsBeforePunct cs

/-- Model of `replace(/([.,!?;:])(\S)/g, '$1 $2')`; the match consumes both characters. -/
def spaceAfterPunct : List Char → List Char
  | p :: c :: cs =>
    if isPunctChar p ∧ ¬ isSpaceJS c then p :: ' ' :: c :: spaceAfterPunct cs
    else p :: spaceAfterPunct (c :: cs)
  | l => l

/-- Case-insensitive (ASCII) equality of two character lists. -/
def ciEq : List Char → List Char → Bool
  | [], [] => true
  | a :: as, b :: bs => lowerAscii a = lowerAscii b && ciEq as bs
  | _, _ => false

/-- Model of `replace(/\b(\w+)\s+\1\b/gi, '$1')`: collapse an immediately repeated word.
The Boolean argument records whether the previous character was a word
character (for the leading `\b`). -/
def dedupWordsF : Nat → Bool → List Char → List Char
  | 0, _, l => l
  | _ + 1, _, [] => []
  | n + 1, prevW, c :: cs =>
    if prevW = false ∧ isWordChar c = true then
      let w := c :: cs.takeWhile isWordChar
      let r1 := cs.dropWhile isWordChar
      let ws := r1.takeWhile isSpaceJS
      let r2 := r1.dropWhile isSpaceJS
      let w2 := r2.takeWhile isWordChar
      if ws ≠ [] ∧ ciEq w w2 = true then
        w ++ dedupWordsF n true (r2.dropWhile isWordChar)
      else c :: dedupWordsF n true cs
    else c :: dedupWordsF n (isWordChar c) cs

def dedupWords (l : List Char) : List Char := dedupWordsF (l.length + 1) false l

/-- The `\.\s+\w` alternative of `/(^\w|\.\s+\w)/g`, upper-casing the word
character after a dot-plus-whitespace sequence. -/
def capAfterDotF : Nat → List Char → List Char
  | 0, l => l
  | _ + 1, [] => []
  | n + 1, '.' :: cs =>
    let ws := cs.takeWhile isSpaceJS
    match cs.dropWhile isSpaceJS with
    | w :: rest =>
      if ws ≠ [] ∧ isWordChar w then '.' :: (ws ++ upperAscii w :: capAfterDotF n rest)
      else '.' :: capAfterDotF n cs
    | [] => '.' :: capAfterDotF n cs
  | n + 1, c :: cs => c :: capAfterDotF n cs

/-- Model of `replace(/(^\w|\.\s+\w)/g, m => m.toUpperCase())`. -/
def capitalizeJS (l : List Char) : List Char :=
  match l with
  | [] => []
  | c :: cs =>
    if isWordChar c then upperAscii c :: capAfterDotF (cs.length + 1) cs
    else capAfterDotF (l.length + 1) (c :: cs)

/-- The function `enhanceTranscript`, over character lists: the fixed pipeline. -/
def enhanceL (l : List Char) : List Char :=
  trimL (collapseWs (capitalizeJS (dedupWords (spaceAfterPunct (delWsBeforePunct
    (collapseWs (removeTags (removeVClose (removeVOpen l)))))))))

/-- The function `enhanceTranscript` at the `String` level. -/
def enhanceTranscript (s : String) : String := String.mk (enhanceL s.data)

/-- The function `parseVTT`, over character lists: split on newlines, classify lines,
join with spaces, trim, enhance. -/
def parseVTTL (l : List Char) : List Char :=
  enhanceL (trimL (joinSep [' '] (parseLines (splitNl l)).2))

/-- The function `parseVTT` at the `String` level. -/
def parseVTT (s : String) : String := String.mk (parseVTTL s.data)

/-! ## The result-table model (`src/components/ResultsTable.tsx`)

A record is an association list from field name to field value (a decoded
JSON object with string fields); a collection is a list of records; the
selection is the set of selected row indices. -/

/-- One extracted item: field name to field value, in insertion order. -/
abbrev ResultRecord : Type := List (String × String)

/-- JavaScript `Object.keys` of a record. -/
def recKeys (r : ResultRecord) : List String := r.map Prod.fst

/-- JavaScript `Set.prototype.add` on an insertion-ordered set. -/
def addKey (acc : List String) (k : String) : List String :=
  if k ∈ acc then acc else acc ++ [k]

/-- The component helper `getHeaders`: union of all keys across all records, insertion order. -/
def getHeaders (results : List ResultRecord) : List String :=
  results.foldl (fun acc r => (recKeys r).foldl addKey acc) []

/-- JavaScript `Array.prototype.join(sep)` over strings. -/
def tsvJoin (sep : String) : List String → String
  | [] => ""
  | [x] => x
  | x :: y :: rest => x ++ sep ++ tsvJoin sep (y :: rest)

/-- The cell expression `row[header] || ''`: an absent or empty (falsy) field renders as `""`. -/
def jsOrEmpty (v : Option String) : String :=
  match v with
  | none => ""
  | some s => if s = "" then "" else s

/-- One data row of the export: one cell per header, in header order. -/
def rowString (headers : List String) (row : ResultRecord) : String :=
  tsvJoin "\t" (headers.map (fun h => jsOrEmpty (List.lookup h row)))

/-- Model of `results.filter((_, index) => selectedRows.has(index))`, with `i` the
index of the first element of the remaining list. -/
def filterByIndex (sel : List Nat) : Nat → List ResultRecord → List ResultRecord
  | _, [] => []
  | i, r :: rs =>
    if i ∈ sel then r :: filterByIndex sel (i + 1) rs
    else filterByIndex sel (i + 1) rs

/-- Model of `selectedRows.size > 0 ? results.filter(...) : results`. -/
def rowsToCopy (results : List ResultRecord) (sel : List Nat) : List ResultRecord :=
  if 0 < sel.length then filterByIndex sel 0 results else results

/-- The TSV built by `copyToClipboard`:
`headerRow ++ "\n" ++ dataRows`, data rows joined by `"\n"`. -/
def copyTSV (results : List ResultRecord) (sel : List Nat) : String :=
  let headers := getHeaders results
  let headerRow := tsvJoin "\t" headers
  let dataRows := tsvJoin "\n" ((rowsToCopy results sel).map (rowString headers))
  headerRow ++ "\n" ++ dataRows

/-- Model of `header.replace(/([A-Z])/g, ' $1')`: a space before every capital. -/
def spaceCaps : List Char → List Char
  | [] => []
  | c :: cs => if 'A' ≤ c ∧ c ≤ 'Z' then ' ' :: c :: spaceCaps cs else c :: spaceCaps cs

/-- Model of `.replace(/^\w/, c => c.toUpperCase())`: upper-case a leading word character. -/
def upFirstWord : List Char → List Char
  | [] => []
  | c :: cs => if isWordChar c then upperAscii c :: cs else c :: cs

/-- The on-screen column-header transform used in the table `<th>` cells:
`header.replace(/([A-Z])/g, ' $1').trim().replace(/^\w/, c => c.toUpperCase())`. -/
def displayHeader (h : String) : String :=
  String.mk (upFirstWord (trimL (spaceCaps h.data)))

/-! ## Record-collection detection (`extract-requirements` route, POST)

The decoded provider payload is an arbitrary JSON value. -/

inductive Json where
  | null
  | bool (b : Bool)
  | num (n : Int)
  | str (s : String)
  | arr (elems : List Json)
  | obj (fields : List (String × Json))

/-- JavaScript truthiness of a JSON value. -/
def Json.truthy : Json → Bool
  | Json.null => false
  | Json.bool b => b
  | Json.num n => n ≠ 0
  | Json.str s => s ≠ ""
  | Json.arr _ => true
  | Json.obj _ => true

def lookupJ : List (String × Json) → String → Option Json
  | [], _ => none
  | (k, v) :: rest, key => if k = key then some v else lookupJ rest key

/-- Property access `parsed[k]` on a non-null value; `none` is `undefined`.
(JSON.parse never produces duplicate keys, so first-match lookup is exact.) -/
def getFieldJ : Json → String → Option Json
  | Json.obj fs, k => lookupJ fs k
  | _, _ => none

/-- JavaScript `Object.keys(parsed)` (empty for primitives). -/
def jsKeysJ : Json → List String
  | Json.obj fs => fs.map Prod.fst
  | _ => []

/-- JavaScript `Array.isArray` of a possibly-`undefined` value. -/
def isArrOpt : Option Json → Bool
  | some (Json.arr _) => true
  | _ => false

/-- Truthiness of a possibly-`undefined` value (`undefined` is falsy). -/
def truthyOpt : Option Json → Bool
  | none => false
  | some j => j.truthy

/-- Elements of an array value (callers only use this after `isArrOpt`). -/
def arrElems : Option Json → List Json
  | some (Json.arr es) => es
  | _ => []

/-- The test `parsed.f && Array.isArray(parsed.f)`. -/
def wantsArr (g : Option Json) : Bool := truthyOpt g && isArrOpt g

/-- The test `parsed.epicName || parsed.requirement || parsed.userStory`
guarding the singleton wrap. -/
def storyTruthy (j : Json) : Bool :=
  truthyOpt (getFieldJ j "epicName") || truthyOpt (getFieldJ j "requirement")
    || truthyOpt (getFieldJ j "userStory")

/-- The record-collection detection of the POST handler.  `none` models the
exception path: property access on a decoded `null` throws a `TypeError`
(caught and re-raised as "Invalid JSON response"). -/
def detectStories (parsed : Json) : Option (List Json) :=
  match parsed with
  | Json.null => none
  | Json.arr es => some es
  | j =>
    if wantsArr (getFieldJ j "userStories") then
      some (arrElems (getFieldJ j "userStories"))
    else if wantsArr (getFieldJ j "requirements") then
      some (arrElems (getFieldJ j "requirements"))
    else
      match (jsKeysJ j).find? (fun k => isArrOpt (getFieldJ j k)) with
      | some k => some (arrElems (getFieldJ j k))
      | none =>
        if storyTruthy j then some [j] else some []

/-- Is the field present at all (claim C6's wording: the object *has* the
field name)? -/
def hasFieldJ (j : Json) (k : String) : Bool :=
  (getFieldJ j k).isSome

/-- Presence (not truthiness) of any of the expected story field names, as
claim C6 words the singleton-wrap guard. -/
def storyPresent (j : Json) : Bool :=
  hasFieldJ j "epicName" || hasFieldJ j "requirement" || hasFieldJ j "userStory"

/-- The detection chain exactly as claim C6 words it: bare array; else
`userStories` array field; else `requirements` array field; else first
array-valued field; else, if the object has one of the expected story field
names, the object wrapped as a one-element collection; else empty.  Total:
the terminal fallback is the empty collection, never an exception. -/
def detectChainSpec : Json → List Json
  | Json.arr es => es
  | j =>
    if isArrOpt (getFieldJ j "userStories") then arrElems (getFieldJ j "userStories")
    else if isArrOpt (getFieldJ j "requirements") then arrElems (getFieldJ j "requirements")
    else
      match (jsKeysJ j).find? (fun k => isArrOpt (getFieldJ j k)) with
      | some k => arrElems (getFieldJ j k)
      | none => if storyPresent j then [j] else []

/-- The detection chain amended to what the code does on non-null payloads:
the singleton-wrap guard tests truthiness of `epicName` / `requirement` /
`userStory` (a present-but-falsy field, such as the empty string, does not
trigger the wrap). -/
def detectChainAmended : Json → List Json
  | Json.arr es => es
  | j =>
    if isArrOpt (getFieldJ j "userStories") then arrElems (getFieldJ j "userStories")
    else if isArrOpt (getFieldJ j "requirements") then arrElems (getFieldJ j "requirements")
    else
      match (jsKeysJ j).find? (fun k => isArrOpt (getFieldJ j k)) with
      | some k => arrElems (getFieldJ j k)
      | none => if storyTruthy j then [j] else []

/-! ## Reference versions of the table-model operations, from the spec's words -/

/-- First-seen-order deduplication, carrying the set of names already seen. -/
def dedupSeen : List String → List String → List String
  | _, [] => []
  | seen, x :: xs =>
    if x ∈ seen then dedupSeen seen xs
    else x :: dedupSeen (x :: seen) xs

/-- Keys in first-seen order: deduplicate the concatenation of all key lists. -/
def dedupFirst (l : List String) : List String := dedupSeen [] l

/-- The concatenation of the key lists of all records, in sequence order. -/
def concatKeys : List ResultRecord → List String
  | [] => []
  | r :: rs => recKeys r ++ concatKeys rs

/-! # Helper lemmas -/

theorem mk_data (s : String) : String.mk s.data = s := rfl

theorem containsSub_cons_of {cs p : List Char} (c : Char) (h : containsSub cs p = true) :
    containsSub (c :: cs) p = true := by
  simp [containsSub, h]

theorem lazyToClose_sub : ∀ (l r : List Char), lazyToClose l = some r →
    containsSub l closeChars = true := by
  intro l
  induction l with
  | nil => intro r h; simp [lazyToClose] at h
  | cons c cs ih =>
    intro r h
    by_cases hs : startsWithL closeChars (c :: cs) = true
    · simp [containsSub, hs]
    · rw [lazyToClose] at h
      rw [if_neg hs] at h
      by_cases hnl : c = '\n' ∨ c = '\r'
      · rw [if_pos hnl] at h; exact absurd h (by simp)
      · rw [if_neg hnl] at h
        rcases Option.map_eq_some'.mp h with ⟨r', hr', _⟩
        exact containsSub_cons_of c (ih r' hr')

theorem afterGt_lazy_sub : ∀ (l u r : List Char), afterGt l = some u →
    lazyToClose u = some r → containsSub l closeChars = true := by
  intro l
  induction l with
  | nil => intro u r h; simp [afterGt] at h
  | cons c cs ih =>
    intro u r h hl
    rw [afterGt] at h
    by_cases hc : c = '>'
    · rw [if_pos hc] at h
      injection h with h
      subst h
      exact containsSub_cons_of c (lazyToClose_sub _ _ hl)
    · rw [if_neg hc] at h
      exact containsSub_cons_of c (ih u r h hl)

theorem vTryHere_sub : ∀ (l r : List Char), vTryHere l = some r →
    containsSub l closeChars = true := by
  intro l r h
  match l with
  | [] => simp [vTryHere] at h
  | [c] => simp [vTryHere] at h
  | c1 :: c2 :: cs =>
    rw [vTryHere] at h
    by_cases hc : c1 = '<' ∧ c2 = 'v'
    · rw [if_pos hc] at h
      rcases Option.bind_eq_some.mp h with ⟨u, hu, hl⟩
      exact containsSub_cons_of c1 (containsSub_cons_of c2 (afterGt_lazy_sub cs u r hu hl))
    · rw [if_neg hc] at h
      exact absurd h (by simp)

theorem voiceMatch_none : ∀ (l : List Char), containsSub l closeChars = false →
    voiceMatch l = none := by
  intro l
  induction l with
  | nil => intro _; rfl
  | cons c cs ih =>
    intro h
    have hsplit : startsWithL closeChars (c :: cs) = false ∧ containsSub cs closeChars = false := by
      have := h
      rw [containsSub] at this
      exact Bool.or_eq_false_iff.mp this
    rw [voiceMatch]
    cases hv : vTryHere (c :: cs) with
    | some r => exact absurd (vTryHere_sub _ _ hv) (by rw [h]; simp)
    | none => exact ih hsplit.2

theorem startsWithL_cons_ex {p : Char} {ps l : List Char}
    (h : startsWithL (p :: ps) l = true) : ∃ cs, l = p :: cs ∧ startsWithL ps cs = true := by
  cases l with
  | nil => simp [startsWithL] at h
  | cons c cs =>
    rw [startsWithL] at h
    simp only [Bool.and_eq_true, decide_eq_true_eq] at h
    exact ⟨cs, by rw [h.1], h.2⟩

/-! # Claim C1 -/

/-- C1 (counterexample): on the input
`"00:00:01.000 --> 00:00:02.000\nHello hello world.\n"` the normalizer does
not return `"Hello world."`. -/
theorem c1_counterexample :
    parseVTT "00:00:01.000 --> 00:00:02.000\nHello hello world.\n" ≠ "Hello world." := by
  decide

/-- C1 (amended): on that input `parseVTT` returns the empty string: the
timing line sets `skipNext`, which suppresses the dialogue line
`"Hello hello world."` that immediately follows it, so no transcript text
is collected. -/
theorem c1_amended :
    parseVTT "00:00:01.000 --> 00:00:02.000\nHello hello world.\n" = "" := by
  decide

/-! # Claim C2 -/

/-- C2 (counterexample): `skipNext` is not false at the end of every loop
iteration: a timing line ends its iteration with the flag set to `true`,
and a blank line leaves a previously-set flag unchanged (still `true`). -/
theorem c2_counterexample :
    (stepLine (false, []) "00:00:01.000 --> 00:00:02.000".data).1 = true ∧
      stepLine (true, []) [] = (true, []) := by
  decide

/-- C2 (amended): the flag discipline of the line-classification loop.
Blank/header lines leave the state unchanged (so `skipNext` is *not*
reset); cue-identifier and timing lines end their iteration with
`skipNext = true`; a voice-tag line always ends with `skipNext = false`;
any other (plain) line ends with `skipNext = false` and is appended to the
accumulator exactly when `skipNext` was false when the line was reached. -/
theorem c2_amended (sk : Bool) (acc : List (List Char)) (line : List Char) :
    (trimL line = webvttChars ∨ trimL line = [] → stepLine (sk, acc) line = (sk, acc)) ∧
    (¬(trimL line = webvttChars ∨ trimL line = []) → isUuidLine (trimL line) = true →
      stepLine (sk, acc) line = (true, acc)) ∧
    (¬(trimL line = webvttChars ∨ trimL line = []) → isUuidLine (trimL line) = false →
      containsSub (trimL line) arrowChars = true → stepLine (sk, acc) line = (true, acc)) ∧
    (¬(trimL line = webvttChars ∨ trimL line = []) → isUuidLine (trimL line) = false →
      containsSub (trimL line) arrowChars = false →
      startsWithL vtagChars (trimL line) = true → (stepLine (sk, acc) line).1 = false) ∧
    (¬(trimL line = webvttChars ∨ trimL line = []) → isUuidLine (trimL line) = false →
      containsSub (trimL line) arrowChars = false →
      startsWithL vtagChars (trimL line) = false →
      stepLine (sk, acc) line = (false, if sk = true then acc else acc ++ [trimL line])) := by
  refine ⟨?_, ?_, ?_, ?_, ?_⟩
  · intro h
    simp only [stepLine]
    rw [if_pos h]
  · intro h hu
    simp only [stepLine]
    rw [if_neg h, if_pos hu]
  · intro h hu ha
    simp only [stepLine]
    rw [if_neg h, hu, if_neg (by simp), if_pos ha]
  · intro h hu ha hv
    simp only [stepLine]
    rw [if_neg h, hu, if_neg (by simp), ha, if_neg (by simp), if_pos hv]
  · intro h hu ha hv
    simp only [stepLine]
    rw [if_neg h, hu, if_neg (by simp), ha, if_neg (by simp), hv, if_neg (by simp)]
    have hne : trimL line ≠ [] := fun hc => h (Or.inr hc)
    cases sk with
    | false => rw [if_pos ⟨rfl, hne⟩]; simp
    | true => rw [if_neg (by simp)]; simp

/-- C2 (witness): the amended theorem applied to a plain dialogue line with
the flag clear appends the trimmed line. -/
theorem c2_amended_w :
    stepLine (false, ([] : List (List Char))) "Hello".data = (false, ["Hello".data]) := by
  have h := (c2_amended false [] "Hello".data).2.2.2.2
    (by decide) (by decide) (by decide) (by decide)
  exact h.trans (by decide)

/-! # Claim C5 -/

/-- C5 (counterexample): the output of the normalizer can contain the
literal token `WEBVTT`: a dialogue line that merely *contains* the token is
not the header line and is kept verbatim. -/
theorem c5_counterexample :
    parseVTT "WEBVTT hello" = "WEBVTT hello" ∧
      containsSub (parseVTT "WEBVTT hello").data webvttChars = true := by
  decide

/-- C5 (amended): the classification loop discards every line that (after
trimming) is exactly `WEBVTT` or contains the substring `-->`: such a line
contributes nothing to the dialogue accumulator.  (The output can still
contain `WEBVTT` inside a longer dialogue line, or `-->` produced by tag
stripping, so the claim's statement about all outputs fails.) -/
theorem c5_amended (sk : Bool) (acc : List (List Char)) (line : List Char)
    (h : trimL line = webvttChars ∨ containsSub (trimL line) arrowChars = true) :
    (stepLine (sk, acc) line).2 = acc := by
  simp only [stepLine]
  rcases h with h | h
  · rw [if_pos (Or.inl h)]
  · by_cases hb : trimL line = webvttChars ∨ trimL line = []
    · rw [if_pos hb]
    · rw [if_neg hb]
      by_cases hu : isUuidLine (trimL line) = true
      · rw [if_pos hu]
      · rw [if_neg hu, if_pos h]

/-- C5 (witness): the amended theorem applied to a timing line. -/
theorem c5_amended_w :
    (stepLine (true, [['a']]) "00:00:01.000 --> 00:00:02.000".data).2 = [['a']] :=
  c5_amended true [['a']] "00:00:01.000 --> 00:00:02.000".data (by decide)

/-! # Claim C9 -/

/-- C9 (confirmed): a line that (after trimming) begins with `<v ` but has
no `</v>` on the same line, and is not caught by the identifier or timing
branches, contributes nothing to the output: the voice-tag match fails, the
line is discarded whole, and the flag is cleared. -/
theorem c9_voiceLine_lost (sk : Bool) (acc : List (List Char)) (line : List Char)
    (hv : startsWithL vtagChars (trimL line) = true)
    (hnc : containsSub (trimL line) closeChars = false)
    (hu : isUuidLine (trimL line) = false)
    (ha : containsSub (trimL line) arrowChars = false) :
    stepLine (sk, acc) line = (false, acc) := by
  rcases startsWithL_cons_ex hv with ⟨cs, hcs, _⟩
  have hne : trimL line ≠ [] := by rw [hcs]; simp
  have hnw : trimL line ≠ webvttChars := by
    rw [hcs]
    intro hcon
    have h3 := congrArg (fun l => l.head?) hcon
    simp [webvttChars] at h3
  simp only [stepLine]
  rw [if_neg (by push_neg; exact ⟨hnw, hne⟩), hu, if_neg (by simp), ha,
    if_neg (by simp), if_pos hv]
  unfold voicePush
  rw [voiceMatch_none _ hnc]

/-- C9 (witness): a voice line whose closing tag is on a later line is lost
even when the flag was previously set. -/
theorem c9_voiceLine_lost_w :
    stepLine (true, ([] : List (List Char))) "<v John>Hello".data = (false, []) :=
  c9_voiceLine_lost true [] "<v John>Hello".data (by decide) (by decide) (by decide) (by decide)

/-! # Header-union lemmas (table model) -/

theorem dedupSeen_congr : ∀ (l s1 s2 : List String), (∀ a, a ∈ s1 ↔ a ∈ s2) →
    dedupSeen s1 l = dedupSeen s2 l := by
  intro l
  induction l with
  | nil => intro s1 s2 _; rfl
  | cons x xs ih =>
    intro s1 s2 hmem
    rw [dedupSeen, dedupSeen]
    by_cases hx : x ∈ s1
    · rw [if_pos hx, if_pos ((hmem x).mp hx)]
      exact ih s1 s2 hmem
    · rw [if_neg hx, if_neg (fun hc => hx ((hmem x).mpr hc))]
      congr 1
      refine ih _ _ ?_
      intro a
      simp only [List.mem_cons, hmem a]

theorem foldl_addKey : ∀ (l acc : List String),
    List.foldl addKey acc l = acc ++ dedupSeen acc l := by
  intro l
  induction l with
  | nil => intro acc; simp [dedupSeen]
  | cons x xs ih =>
    intro acc
    rw [List.foldl_cons, dedupSeen]
    by_cases hx : x ∈ acc
    · rw [if_pos hx]
      have ha : addKey acc x = acc := by rw [addKey, if_pos hx]
      rw [ha, ih]
    · rw [if_neg hx]
      have ha : addKey acc x = acc ++ [x] := by rw [addKey, if_neg hx]
      rw [ha, ih, List.append_assoc]
      congr 1
      rw [List.singleton_append]
      congr 1
      apply dedupSeen_congr
      intro a
      simp only [List.mem_append, List.mem_cons, List.mem_singleton]
      tauto

theorem getHeaders_fold : ∀ (results : List ResultRecord) (acc : List String),
    List.foldl (fun acc r => (recKeys r).foldl addKey acc) acc results =
      List.foldl addKey acc (concatKeys results) := by
  intro results
  induction results with
  | nil => intro acc; rfl
  | cons r rs ih =>
    intro acc
    rw [List.foldl_cons, concatKeys, List.foldl_append]
    exact ih _

theorem getHeaders_eq_dedup (results : List ResultRecord) :
    getHeaders results = dedupFirst (concatKeys results) := by
  rw [getHeaders, getHeaders_fold, dedupFirst, foldl_addKey, List.nil_append]

theorem mem_dedupSeen : ∀ (l seen : List String) (x : String),
    x ∈ dedupSeen seen l → x ∈ l := by
  intro l
  induction l with
  | nil => intro seen x hx; simp [dedupSeen] at hx
  | cons a as ih =>
    intro seen x hx
    rw [dedupSeen] at hx
    by_cases ha : a ∈ seen
    · rw [if_pos ha] at hx
      exact List.mem_cons_of_mem a (ih seen x hx)
    · rw [if_neg ha] at hx
      rcases List.mem_cons.mp hx with h | h
      · exact h ▸ List.mem_cons_self a as
      · exact List.mem_cons_of_mem a (ih _ x h)

theorem mem_concatKeys : ∀ (results : List ResultRecord) (x : String),
    x ∈ concatKeys results → ∃ r, r ∈ results ∧ x ∈ recKeys r := by
  intro results
  induction results with
  | nil => intro x hx; simp [concatKeys] at hx
  | cons r rs ih =>
    intro x hx
    rw [concatKeys] at hx
    rcases List.mem_append.mp hx with h | h
    · exact ⟨r, List.mem_cons_self r rs, h⟩
    · rcases ih x h with ⟨r', hr', hx'⟩
      exact ⟨r', List.mem_cons_of_mem r hr', hx'⟩

/-! # Claim C7 -/

/-- C7 (confirmed): `getHeaders` returns the union of all keys across all
records in first-seen order (records in sequence order, keys within a
record in insertion order) — equivalently, the first-seen deduplication of
the concatenation of all key lists — and on
`[{a:"1",b:"2"}, {a:"3",c:"4"}]` it returns `["a","b","c"]`.  (`getHeaders`
is a pure function, so repeated calls on the same input agree.) -/
theorem c7_headers :
    (∀ results : List ResultRecord,
        getHeaders results = dedupFirst (concatKeys results)) ∧
      getHeaders [[("a","1"),("b","2")],[("a","3"),("c","4")]] = ["a","b","c"] :=
  ⟨getHeaders_eq_dedup, by decide⟩

/-! # Claim C8 -/

theorem tsvJoin_cons (sep x : String) {rest : List String} (h : rest ≠ []) :
    tsvJoin sep (x :: rest) = x ++ sep ++ tsvJoin sep rest := by
  cases rest with
  | nil => exact absurd rfl h
  | cons y t => rfl

/-- C8 (confirmed): the export equals the header row followed by one data
row per record of `rowsToCopy` (the selected records, or all records when
the selection is empty), joined by newlines; each data row has one cell
per header in header order, and a header absent from a record renders as
the empty cell (`jsOrEmpty` of a failed lookup), never as an error. -/
theorem c8_projection (results : List ResultRecord) (sel : List Nat)
    (hne : rowsToCopy results sel ≠ []) :
    copyTSV results sel =
        tsvJoin "\n" (tsvJoin "\t" (getHeaders results) ::
          (rowsToCopy results sel).map (rowString (getHeaders results))) ∧
      (sel = [] → rowsToCopy results sel = results) ∧
      (∀ row : ResultRecord,
        ((getHeaders results).map (fun h => jsOrEmpty (List.lookup h row))).length =
          (getHeaders results).length) ∧
      (∀ (row : ResultRecord) (h : String), List.lookup h row = none →
        jsOrEmpty (List.lookup h row) = "") := by
  refine ⟨?_, ?_, ?_, ?_⟩
  · have hm : (rowsToCopy results sel).map (rowString (getHeaders results)) ≠ [] := by
      intro hc
      exact hne (List.map_eq_nil_iff.mp hc)
    simp only [copyTSV]
    rw [tsvJoin_cons _ _ hm]
  · intro hsel
    rw [rowsToCopy, hsel]
    simp
  · intro row
    exact List.length_map _ _
  · intro row h hl
    rw [hl]
    rfl

/-- C8 (witness): the projection shape at a concrete collection with one
selected row. -/
theorem c8_projection_w :
    copyTSV [[("a","1")],[("b","2")]] [0] =
      tsvJoin "\n" (tsvJoin "\t" (getHeaders [[("a","1")],[("b","2")]]) ::
        (rowsToCopy [[("a","1")],[("b","2")]] [0]).map
          (rowString (getHeaders [[("a","1")],[("b","2")]]))) :=
  (c8_projection [[("a","1")],[("b","2")]] [0] (by decide)).1

/-! # Claim C10 -/

theorem rowString_congr {r1 r2 : ResultRecord} {h : String}
    (h1 : List.lookup h r1 = some "") (h2 : List.lookup h r2 = none)
    (hag : ∀ k, k ≠ h → List.lookup k r1 = List.lookup k r2) :
    ∀ headers : List String, rowString headers r1 = rowString headers r2 := by
  intro headers
  rw [rowString, rowString]
  congr 1
  induction headers with
  | nil => rfl
  | cons x xs ih =>
    rw [List.map_cons, List.map_cons, ih]
    congr 1
    by_cases hx : x = h
    · subst hx
      rw [h1, h2]
      rfl
    · rw [hag x hx]

theorem filterByIndex_map_congr {f : ResultRecord → String} {r1 r2 : ResultRecord}
    (hf : f r1 = f r2) (sel : List Nat) :
    ∀ (pre post : List ResultRecord) (i : Nat),
      (filterByIndex sel i (pre ++ r1 :: post)).map f =
        (filterByIndex sel i (pre ++ r2 :: post)).map f := by
  intro pre
  induction pre with
  | nil =>
    intro post i
    simp only [List.nil_append]
    rw [filterByIndex, filterByIndex]
    by_cases hi : i ∈ sel
    · rw [if_pos hi, if_pos hi, List.map_cons, List.map_cons, hf]
    · rw [if_neg hi, if_neg hi]
  | cons p ps ih =>
    intro post i
    simp only [List.cons_append]
    rw [filterByIndex, filterByIndex]
    by_cases hi : i ∈ sel
    · rw [if_pos hi, if_pos hi, List.map_cons, List.map_cons, ih]
    · rw [if_neg hi, if_neg hi, ih]

/-- C10 (amended): the *data row* of a record with field `h` present and
empty equals that of the same record with `h` absent (both render the empty
cell), and the whole exports coincide whenever the header unions of the two
collections coincide (for instance when `h` also occurs in another record).
When `h` occurs only in that record, the header row itself differs, so the
full exports differ — see the counterexample. -/
theorem c10_amended (pre post : List ResultRecord) (r1 r2 : ResultRecord)
    (sel : List Nat) (h : String)
    (h1 : List.lookup h r1 = some "") (h2 : List.lookup h r2 = none)
    (hag : ∀ k, k ≠ h → List.lookup k r1 = List.lookup k r2)
    (hH : getHeaders (pre ++ r1 :: post) = getHeaders (pre ++ r2 :: post)) :
    copyTSV (pre ++ r1 :: post) sel = copyTSV (pre ++ r2 :: post) sel := by
  have hrow := rowString_congr h1 h2 hag (getHeaders (pre ++ r1 :: post))
  simp only [copyTSV]
  rw [← hH]
  congr 1
  rw [rowsToCopy, rowsToCopy]
  by_cases hsel : 0 < sel.length
  · rw [if_pos hsel, if_pos hsel]
    congr 1
    exact filterByIndex_map_congr hrow sel pre post 0
  · rw [if_neg hsel, if_neg hsel]
    congr 1
    rw [List.map_append, List.map_append, List.map_cons, List.map_cons, hrow]

/-- C10 (witness): with `h` also present in an earlier record, the exports
coincide. -/
theorem c10_amended_w :
    copyTSV [[("h","x")], [("h","")]] [] = copyTSV [[("h","x")], []] [] :=
  c10_amended [[("h","x")]] [] [("h","")] [] [] "h" (by decide) rfl
    (fun k hk => by
      have hb : (k == "h") = false := beq_eq_false_iff_ne.mpr hk
      simp [List.lookup, hb]) (by decide)

/-- C10 (counterexample): with a single record, field `h` present-but-empty
versus absent changes the header union, so the exports differ
(`"h\n"` versus `"\n"`): presence-with-empty-value and absence are
distinguishable in the export. -/
theorem c10_counterexample :
    copyTSV [[("h","")]] [] ≠ copyTSV [[]] [] := by
  decide

/-! # Claim C3 -/

theorem data_append (a b : String) : (a ++ b).data = a.data ++ b.data := by
  rcases a with ⟨da⟩
  rcases b with ⟨db⟩
  rfl

theorem takeWhile_until_nl : ∀ (A B : List Char), '\n' ∉ A →
    List.takeWhile (fun c => c != '\n') (A ++ '\n' :: B) = A := by
  intro A B
  induction A with
  | nil =>
    intro _
    simp [List.takeWhile]
  | cons a as ih =>
    intro h
    have ha : (a != '\n') = true := by
      simp only [bne_iff_ne, ne_eq]
      intro hc
      exact h (hc ▸ List.mem_cons_self a as)
    rw [List.cons_append, List.takeWhile_cons, ha]
    simp only [if_true]
    rw [ih (fun hc => h (List.mem_cons_of_mem a hc))]

theorem tsvJoin_no_nl : ∀ (hs : List String), (∀ h ∈ hs, '\n' ∉ h.data) →
    '\n' ∉ (tsvJoin "\t" hs).data := by
  intro hs
  induction hs with
  | nil =>
    intro _ hc
    simp [tsvJoin] at hc
  | cons x xs ih =>
    intro h hc
    cases xs with
    | nil => exact h x (List.mem_cons_self x []) (by simpa [tsvJoin] using hc)
    | cons y t =>
      rw [tsvJoin_cons _ _ (by simp), data_append, data_append] at hc
      rcases List.mem_append.mp hc with hc1 | hc2
      · rcases List.mem_append.mp hc1 with hca | hcb
        · exact h x (List.mem_cons_self x _) hca
        · simp at hcb
      · exact ih (fun h' hh => h h' (List.mem_cons_of_mem x hh)) hc2

/-- C3 (amended): the first line of the TSV export is the *raw* header row:
the original record keys joined by tabs, untransformed, and every header is
an original key of some record.  The camel-case-to-spaced, capitalized
transform (`displayHeader`) is applied only to the on-screen column
headers, while both the export's header row and data-row lookup use the
original keys. -/
theorem c3_amended (results : List ResultRecord) (sel : List Nat)
    (hnl : ∀ h ∈ getHeaders results, '\n' ∉ h.data) :
    (copyTSV results sel).data.takeWhile (fun c => c != '\n') =
        (tsvJoin "\t" (getHeaders results)).data ∧
      ∀ h ∈ getHeaders results, ∃ r, r ∈ results ∧ h ∈ recKeys r := by
  constructor
  · have hjoin : '\n' ∉ (tsvJoin "\t" (getHeaders results)).data := tsvJoin_no_nl _ hnl
    simp only [copyTSV]
    rw [data_append, data_append, List.append_assoc]
    exact takeWhile_until_nl _ _ hjoin
  · intro h hh
    rw [getHeaders_eq_dedup, dedupFirst] at hh
    exact mem_concatKeys _ _ (mem_dedupSeen _ _ _ hh)

/-- C3 (witness): the raw first line at a concrete collection. -/
theorem c3_amended_w :
    (copyTSV [[("epicName","x")]] []).data.takeWhile (fun c => c != '\n') =
      (tsvJoin "\t" (getHeaders [[("epicName","x")]])).data :=
  (c3_amended [[("epicName","x")]] [] (by decide)).1

/-- C3 (counterexample): for `[{epicName: "x"}]` the export's first row is
the raw key `epicName`, not the display transform `Epic Name` that the
claim requires. -/
theorem c3_counterexample :
    copyTSV [[("epicName","x")]] [] = "epicName\nx" ∧
      displayHeader "epicName" = "Epic Name" ∧
      ("epicName" : String) ≠ "Epic Name" := by
  decide

/-! # Claim C6 -/

theorem wantsArr_eq (g : Option Json) : wantsArr g = isArrOpt g := by
  cases g with
  | none => rfl
  | some j => cases j <;> simp [wantsArr, truthyOpt, isArrOpt, Json.truthy]

/-- C6 (amended): on every non-null decoded payload the detection follows
the ordered fallback chain — bare array; else `userStories` array field;
else `requirements` array field; else the first array-valued field; else,
if the object has one of the expected story fields `epicName`,
`requirement` or `userStory` *with a truthy value* (mere presence with a
falsy value such as `""` does not count), the object wrapped as a
one-element collection; else the empty collection, returned rather than
raised.  A decoded `null` payload is the one exception: property access on
it throws, so the handler raises instead of returning empty. -/
theorem c6_amended :
    (∀ j : Json, j ≠ Json.null → detectStories j = some (detectChainAmended j)) ∧
      detectStories Json.null = none := by
  constructor
  · intro j hj
    cases j with
    | null => exact absurd rfl hj
    | arr es => rfl
    | bool b => rfl
    | num n => rfl
    | str s => rfl
    | obj fs =>
      have e1 : detectStories (Json.obj fs) =
          (if wantsArr (getFieldJ (Json.obj fs) "userStories") then
            some (arrElems (getFieldJ (Json.obj fs) "userStories"))
          else if wantsArr (getFieldJ (Json.obj fs) "requirements") then
            some (arrElems (getFieldJ (Json.obj fs) "requirements"))
          else
            match (jsKeysJ (Json.obj fs)).find?
                (fun k => isArrOpt (getFieldJ (Json.obj fs) k)) with
            | some k => some (arrElems (getFieldJ (Json.obj fs) k))
            | none =>
              if storyTruthy (Json.obj fs) then some [Json.obj fs] else some []) := rfl
      have e2 : detectChainAmended (Json.obj fs) =
          (if isArrOpt (getFieldJ (Json.obj fs) "userStories") then
            arrElems (getFieldJ (Json.obj fs) "userStories")
          else if isArrOpt (getFieldJ (Json.obj fs) "requirements") then
            arrElems (getFieldJ (Json.obj fs) "requirements")
          else
            match (jsKeysJ (Json.obj fs)).find?
                (fun k => isArrOpt (getFieldJ (Json.obj fs) k)) with
            | some k => arrElems (getFieldJ (Json.obj fs) k)
            | none => if storyTruthy (Json.obj fs) then [Json.obj fs] else []) := rfl
      rw [e1, e2, wantsArr_eq, wantsArr_eq]
      by_cases h1 : isArrOpt (getFieldJ (Json.obj fs) "userStories") = true
      · rw [if_pos h1, if_pos h1]
      · rw [if_neg h1, if_neg h1]
        by_cases h2 : isArrOpt (getFieldJ (Json.obj fs) "requirements") = true
        · rw [if_pos h2, if_pos h2]
        · rw [if_neg h2, if_neg h2]
          cases hf : (jsKeysJ (Json.obj fs)).find?
              (fun k => isArrOpt (getFieldJ (Json.obj fs) k)) with
          | some k => rfl
          | none =>
            by_cases h3 : storyTruthy (Json.obj fs) = true
            · rw [if_pos h3, if_pos h3]
            · rw [if_neg h3, if_neg h3]
  · rfl

/-- C6 (witness): the amended chain at a concrete non-null payload with a
`requirements` array field. -/
theorem c6_amended_w :
    detectStories (Json.obj [("requirements", Json.arr [Json.num 1])]) =
      some (detectChainAmended (Json.obj [("requirements", Json.arr [Json.num 1])])) :=
  c6_amended.1 (Json.obj [("requirements", Json.arr [Json.num 1])])
    (fun h => Json.noConfusion h)

/-- C6 (counterexample): the payload `{"epicName": ""}` has the expected
story field name `epicName`, so the claim's chain wraps it as a one-element
collection, but the code tests truthiness and the empty string is falsy:
the handler returns the empty collection instead. -/
theorem c6_counterexample :
    detectStories (Json.obj [("epicName", Json.str "")]) = some [] ∧
      detectChainSpec (Json.obj [("epicName", Json.str "")]) =
        [Json.obj [("epicName", Json.str "")]] ∧
      detectStories (Json.obj [("epicName", Json.str "")]) ≠
        some (detectChainSpec (Json.obj [("epicName", Json.str "")])) := by
  refine ⟨rfl, rfl, ?_⟩
  intro hcon
  rw [show detectStories (Json.obj [("epicName", Json.str "")]) = some [] from rfl,
    show detectChainSpec (Json.obj [("epicName", Json.str "")]) =
      [Json.obj [("epicName", Json.str "")]] from rfl] at hcon
  injection hcon with hcon
  exact List.noConfusion hcon

/-! # Claim C4 -/

theorem parseVTTL_fixed (d : List Char)
    (h1 : splitNl d = [d])
    (h2 : trimL d = d)
    (h3 : isUuidLine d = false)
    (h4 : containsSub d arrowChars = false)
    (h5 : startsWithL vtagChars d = false)
    (h6 : d ≠ webvttChars)
    (h7 : enhanceL d = d) :
    parseVTTL d = d := by
  rw [parseVTTL, h1]
  have hfold : parseLines [d] = stepLine (false, []) d := rfl
  rw [hfold]
  by_cases hd : d = []
  · simp only [stepLine, h2]
    rw [if_pos (Or.inr hd), hd]
    rw [hd] at h7
    exact h7
  · simp only [stepLine, h2]
    rw [if_neg (by push_neg; exact ⟨h6, hd⟩), h3, if_neg (by simp), h4,
      if_neg (by simp), h5, if_neg (by simp), if_pos ⟨trivial, hd⟩]
    show enhanceL (trimL (joinSep [' '] ([] ++ [d]))) = d
    rw [List.nil_append]
    have hj : joinSep [' '] [d] = d := rfl
    rw [hj, h2, h7]

/-- C4 (amended): applying the normalizer twice equals applying it once
*provided* the once-normalized output survives re-parsing unchanged: it
splits into a single line, is trim-stable, is not re-classified by the
cue-identifier, timing, voice-tag or header branches, and is a fixed point
of the enhancement pipeline.  (Without these conditions a second
application can differ — see the counterexample, where the pass-one output
acquires enough hyphen-separated segments to be re-classified as a
cue-identifier line and discarded.) -/
theorem c4_amended (x : String)
    (h1 : splitNl (parseVTT x).data = [(parseVTT x).data])
    (h2 : trimL (parseVTT x).data = (parseVTT x).data)
    (h3 : isUuidLine (parseVTT x).data = false)
    (h4 : containsSub (parseVTT x).data arrowChars = false)
    (h5 : startsWithL vtagChars (parseVTT x).data = false)
    (h6 : (parseVTT x).data ≠ webvttChars)
    (h7 : enhanceL (parseVTT x).data = (parseVTT x).data) :
    parseVTT (parseVTT x) = parseVTT x := by
  have key := parseVTTL_fixed (parseVTT x).data h1 h2 h3 h4 h5 h6 h7
  show String.mk (parseVTTL (parseVTT x).data) = parseVTT x
  rw [key]

/-- C4 (witness): the amended idempotence conditions hold for the output of
a plain dialogue input. -/
theorem c4_amended_w : parseVTT (parseVTT "hello world") = parseVTT "hello world" :=
  c4_amended "hello world" (by decide) (by decide) (by decide) (by decide)
    (by decide) (by decide) (by decide)

/-- C4 (counterexample): the normalizer is not idempotent as claimed: for
the input `"a-b-c\nd-e"` one pass yields `"A-b-c d-e"`, whose four
hyphen-separated segments make the second pass classify the whole line as
a cue identifier and discard it, yielding `""`. -/
theorem c4_counterexample :
    parseVTT (parseVTT "a-b-c\nd-e") ≠ parseVTT "a-b-c\nd-e" := by
  decide
